import Mathlib

/-!
Verification of the gin-cli release script `dorelease.py` (build, download,
package and publish pipeline).  The Python source is shallowly embedded:
pure path/string computations become Lean functions, the etag ledger and
the relevant parts of the filesystem become explicit state, external
processes become an exit-code oracle, and Python exceptions become
`Except PyErr`.
-/

namespace DoRelease

/-- Python exceptions and `sys.exit` observable in this program. -/
inductive PyErr where
  | typeError
  | valueError
  | zeroDivisionError
  | fileNotFound
  | fileExists
  | sysExit (code : Int)
  deriving DecidableEq, Repr

/-! ### Path helpers (`os.path`)

Every `os.path.join(a, b)` in this program has a non-empty first component
that does not end in a slash and a relative second component, so the join
is always `a ++ "/" ++ b`. -/

def joinP (a b : String) : String :=
  a ++ "/" ++ b

/-- Characters of a path after the last slash (empty if the path ends in a
slash).  This is the `tail` part of Python's `os.path.split`, and also
`s.split("/")[-1]`. -/
def afterLastSlash (cs : List Char) : List Char :=
  (cs.reverse.takeWhile (fun c => c != '/')).reverse

/-- Characters of a path up to and including the last slash:
the raw `head` part of Python's `os.path.split` before slash-stripping. -/
def uptoLastSlash (cs : List Char) : List Char :=
  (cs.reverse.dropWhile (fun c => c != '/')).reverse

/-- Remove trailing slashes. -/
def rstripSlashes (cs : List Char) : List Char :=
  (cs.reverse.dropWhile (fun c => c == '/')).reverse

/-- Python `os.path.split` for POSIX paths: split at the last slash; the
head keeps no trailing slashes unless it consists only of slashes. -/
def osSplit (p : String) : String × String :=
  let cs := p.toList
  let head := uptoLastSlash cs
  let tail := afterLastSlash cs
  let head := if head.any (fun c => c != '/') then rstripSlashes head else head
  (⟨head⟩, ⟨tail⟩)

/-- Python `str.replace(pat, repl)` (all non-overlapping occurrences, left
to right), on character lists, with explicit fuel so that the kernel can
evaluate it.  Fuel `s.length` is always sufficient since each step consumes
at least one character. -/
def replaceFuel (pat repl : List Char) : Nat → List Char → List Char
  | 0, s => s
  | _ + 1, [] => []
  | n + 1, c :: cs =>
    if pat.isPrefixOf (c :: cs) then
      repl ++ replaceFuel pat repl n (cs.drop (pat.length - 1))
    else
      c :: replaceFuel pat repl n cs

/-- Python `s.replace(pat, repl)`.  The program never calls this with an
empty pattern; for an empty pattern this model returns `s` unchanged. -/
def pyReplace (s pat repl : String) : String :=
  match pat.data with
  | [] => s
  | _ :: _ => ⟨replaceFuel pat.data repl.data s.data.length s.data⟩

/-- Value of a decimal digit character. -/
def digitVal (c : Char) : Option Nat :=
  if c.isDigit then some (c.toNat - 48) else none

/-- Accumulate decimal digits; fails on any non-digit. -/
def digitsToNatAux : Nat → List Char → Option Nat
  | acc, [] => some acc
  | acc, c :: cs =>
    match digitVal c with
    | none => none
    | some d => digitsToNatAux (acc * 10 + d) cs

/-- Python `int(s)` on a string: optional sign followed by at least one
decimal digit (the surrounding-whitespace tolerance of Python's `int` is
irrelevant for HTTP header values and not modelled). -/
def pyIntOfChars : List Char → Option Int
  | [] => none
  | '-' :: rest => (pyIntOfChars rest).bind (fun n => if n < 0 then none else some (-n))
  | '+' :: rest => (pyIntOfChars rest).bind (fun n => if n < 0 then none else some n)
  | cs => (digitsToNatAux 0 cs).map Int.ofNat

/-- Substring test on character lists. -/
def isSubOf (pat : List Char) : List Char → Bool
  | [] => pat.isEmpty
  | c :: cs => pat.isPrefixOf (c :: cs) || isSubOf pat cs

/-- Python `sub in s` for strings. -/
def containsSub (s sub : String) : Bool := isSubOf sub.data s.data

/-! ### Fixed locations (`DESTDIR`, `PKGDIR`) -/

def DESTDIR : String := "dist"

def PKGDIR : String := joinP DESTDIR "pkg"

def DOWNLOADDIR : String := joinP DESTDIR "downloads"

/-! ### The cache-aware downloader (`download`)

The in-memory etag ledger `ETAGS` is a url → etag association list (the
stored etag itself may be `None`, exactly as in Python where
`ETAGS[url] = etag` can store `None`).  The filesystem is modelled as the
map path → size that `os.path.exists` / `os.path.getsize` observe. -/

structure DLState where
  etags : List (String × Option String)
  files : List (String × Nat)
  deriving DecidableEq, Repr

/-- The parts of a `requests` response that `download` reads.  `chunks`
are the sizes of the bodies yielded by `iter_content(chunk_size=256)`. -/
structure Response where
  contentLength : Option String
  etag : Option String
  chunks : List Nat
  deriving DecidableEq, Repr

/-- Observable events of one `download` call, in program order:
a ledger assignment `ETAGS[url] = etag`, and each chunk written to the
destination file. -/
inductive DLEvent where
  | setEtag (url : String) (etag : Option String)
  | writeChunk (n : Nat)
  deriving DecidableEq, Repr

/-- Python `int(...)` applied to an optional header value:
`int(None)` raises `TypeError`, an unparsable string raises `ValueError`. -/
def pyIntOfHeader : Option String → Except PyErr Int
  | none => .error .typeError
  | some s =>
    match pyIntOfChars s.data with
    | none => .error .valueError
    | some n => .ok n

/-- Destination resolution of `download`: derive the filename from the URL
(`url.split("/")[-1]`) when none is given, then place it under
`dist/downloads`. -/
def resolveDest (url : String) (fnameArg : Option String) : String :=
  joinP DOWNLOADDIR (match fnameArg with
    | none => ⟨afterLastSlash url.toList⟩
    | some f => f)

/-- The cache-hit test of `download` (lines 76–78): the server etag equals
`ETAGS.get(url)` (where a missing ledger entry reads as `None`), the
destination file exists, and its size equals the reported size. -/
def cacheHit (st : DLState) (url dest : String) (etag : Option String) (size : Int) : Bool :=
  etag == (List.lookup url st.etags).join &&
    match List.lookup dest st.files with
    | some sz => (sz : Int) == size
    | none => false

/-- `download(url, fname)`.  `resp = none` models `requests.get` raising
`ConnectionError` (caught: the function logs and returns `None`).
On a cache miss the ledger is assigned (`ETAGS[url] = etag`) and then the
body is streamed chunk by chunk to the destination, printing
`prog/size*100` percent progress — which divides by zero if the reported
size is `0` and at least one chunk arrives. -/
def download (st : DLState) (url : String) (fnameArg : Option String) :
    Option Response → Except PyErr (Option String × DLState × List DLEvent)
  | none => .ok (none, st, [])
  | some r =>
    let dest := resolveDest url fnameArg
    match pyIntOfHeader r.contentLength with
    | .error e => .error e
    | .ok size =>
      if cacheHit st url dest r.etag size then
        .ok (some dest, st, [])
      else
        let st1 : DLState := ⟨(url, r.etag) :: st.etags, st.files⟩
        if size == 0 && !r.chunks.isEmpty then
          .error .zeroDivisionError
        else
          .ok (some dest, ⟨st1.etags, (dest, r.chunks.sum) :: st1.files⟩,
            .setEtag url r.etag :: r.chunks.map .writeChunk)

/-- Decides whether, in an event trace, every ledger assignment happens
only after all body writes (i.e. no write chunk occurs after a ledger
assignment). -/
def etagAfterBody : List DLEvent → Bool
  | [] => true
  | .setEtag _ _ :: rest =>
    rest.all (fun e => match e with | .writeChunk _ => false | _ => true)
      && etagAfterBody rest
  | .writeChunk _ :: rest => etagAfterBody rest

/-! ### External processes and the package-directory filesystem

External commands (`subprocess.call` through `run`) are an exit-code
oracle.  `run` prints the space-joined command before calling it, so a
`None` element in the command list raises `TypeError` (Python
`str.join` over a list containing `None`).  Commands whose elements are
all string literals cannot hit that error and use `runS` directly.

The filesystem state tracked here is the part the claims observe: which
paths exist and their content identity (an inode number, so that a hard
link is distinguishable from a copy).  Staging work inside fresh scratch
directories (`shutil.copy`, `os.makedirs`, … into a `TemporaryDirectory`)
is not observable by any claim and has no effect in this model; archive
files, however, are recorded when the external archiver exits
successfully. -/

abbrev Exec := List String → Int

/-- `run(cmd)` for a command of plain strings. -/
def runS (ex : Exec) (cmd : List String) : Int := ex cmd

/-- Collapse a Python list whose elements are strings-or-`None`. -/
def allSome : List (Option String) → Option (List String)
  | [] => some []
  | none :: _ => none
  | some s :: rest => (allSome rest).map (fun l => s :: l)

/-- `run(cmd)` for a command that may contain `None` (the f-string join in
`run`, and the `print` before it, raise `TypeError` in that case). -/
def runCmd (ex : Exec) (cmd : List (Option String)) : Except PyErr Int :=
  match allSome cmd with
  | none => .error .typeError
  | some c => .ok (ex c)

structure FS where
  entries : List (String × Nat)
  next : Nat
  deriving DecidableEq, Repr

/-- `os.path.lexists`. -/
def lexists (fs : FS) (p : String) : Bool :=
  (List.lookup p fs.entries).isSome

/-- Create (or overwrite) a file with fresh content identity. -/
def fsCreate (fs : FS) (p : String) : FS :=
  ⟨(p, fs.next) :: fs.entries, fs.next + 1⟩

/-- `os.remove` / `os.unlink` (existence is checked by the callers). -/
def fsRemove (fs : FS) (p : String) : FS :=
  ⟨fs.entries.filter (fun kv => kv.1 != p), fs.next⟩

/-- `os.link(src, dst)`: a hard link — the new name carries the same
content identity as the source.  Raises if the source is missing or the
destination already exists. -/
def osLink (fs : FS) (src dst : String) : Except PyErr FS :=
  match List.lookup src fs.entries with
  | none => .error .fileNotFound
  | some ino =>
    if lexists fs dst then .error .fileExists
    else .ok ⟨(dst, ino) :: fs.entries, fs.next⟩

/-- Python `os.path.abspath` for this program's relative paths (the
working directory never changes between computing a path and using it). -/
def pyAbspath (cwd p : String) : String := joinP cwd p

/-! ### Platform packagers -/

/-- The `osarch` extracted from a binary path:
`dirname, fname = os.path.split(binf); _, osarch = os.path.split(dirname)`. -/
def osarchOf (binf : String) : String :=
  (osSplit (osSplit binf).1).2

/-- Archive name of `package_linux_plain` for one binary. -/
def linuxArcName (v binf : String) : String :=
  joinP PKGDIR ("gin-cli-" ++ v ++ "-" ++ osarchOf binf ++ ".tar.gz")

/-- `package_linux_plain`: for each binary, tar the binary with the
README; a failed tar is logged and that archive is skipped. -/
def package_linux_plain (v : String) (ex : Exec) : FS → List String → FS × List String
  | fs, [] => (fs, [])
  | fs, binf :: rest =>
    let dirname := (osSplit binf).1
    let fname := (osSplit binf).2
    let arc := linuxArcName v binf
    if runS ex ["tar", "-czf", arc, "-C", dirname, fname, "README.md"] > 0 then
      package_linux_plain v ex fs rest
    else
      let r := package_linux_plain v ex (fsCreate fs arc) rest
      (r.1, arc :: r.2)

/-- Archive name of `package_mac_plain` for one binary
(`osarch.replace("darwin", "macos")`). -/
def macArcName (v binf : String) : String :=
  joinP PKGDIR ("gin-cli-" ++ v ++ "-" ++ pyReplace (osarchOf binf) "darwin" "macos" ++ ".tar.gz")

/-- `package_mac_plain`: identical to the Linux plain packager except for
the `darwin → macos` substitution in the archive name. -/
def package_mac_plain (v : String) (ex : Exec) : FS → List String → FS × List String
  | fs, [] => (fs, [])
  | fs, binf :: rest =>
    let dirname := (osSplit binf).1
    let fname := (osSplit binf).2
    let arc := macArcName v binf
    if runS ex ["tar", "-czf", arc, "-C", dirname, fname, "README.md"] > 0 then
      package_mac_plain v ex fs rest
    else
      let r := package_mac_plain v ex (fsCreate fs arc) rest
      (r.1, arc :: r.2)

/-! ### Debian packager -/

def dockerKillCmd : List String := ["docker", "kill", "gin-deb-build"]

def dockerRmCmd : List String := ["docker", "container", "rm", "gin-deb-build"]

def dockerBuildCmd : List String := ["docker", "build", "-t", "gin-deb", "debdock/."]

/-- `docdir = os.path.join(pkgdir, "usr", "share", "doc", pkgname)` inside
the scratch directory. -/
def docdirOf (tmpdir : String) : String :=
  joinP (joinP (joinP (joinP (joinP tmpdir "gin-cli") "usr") "share") "doc") "gin-cli"

def gzipCmd (tmpdir : String) : List String :=
  ["gzip", "--best", joinP (docdirOf tmpdir) "changelog", joinP (docdirOf tmpdir) "changelog.Debian"]

/-- `opt_gin_dir` inside the scratch directory. -/
def optGinDirOf (tmpdir : String) : String :=
  joinP (joinP (joinP tmpdir "gin-cli") "opt") "gin"

/-- The annex-standalone extraction command; `annexsa` may be `None` when
its download failed. -/
def annexTarCmd (tmpdir : String) (annexsa : Option String) : List (Option String) :=
  [some "tar", some "-xzf", annexsa, some "-C", some (optGinDirOf tmpdir)]

def dockerRunCmd (tmpdir : String) : List String :=
  ["docker", "run", "-it", "--rm", "-v", tmpdir ++ ":/debbuild/", "--name", "gin-deb-build", "gin-deb"]

/-- Destination of the built deb: `os.path.join(PKGDIR, f"{pkgnamever}.deb")`. -/
def debName (v : String) : String :=
  joinP PKGDIR ("gin-cli-" ++ v ++ ".deb")

/-- The per-binary loop of `debianize`.  A failed annex extraction skips
that binary; a failed in-container build (`docker run`) cleans up and
returns `None` from `debianize`, discarding even previously collected
debs.  A failed `gzip` is only logged.  The staging-tree copies between
these commands act on the scratch directory only. -/
def debianizeGo (v : String) (ex : Exec) (tmpdir : String) (annexsa : Option String) :
    FS → List String → Except PyErr (FS × Option (List String))
  | fs, [] => .ok (fs, some [])
  | fs, _binf :: rest =>
    let _gz := runS ex (gzipCmd tmpdir)
    match runCmd ex (annexTarCmd tmpdir annexsa) with
    | .error e => .error e
    | .ok rtar =>
      if rtar > 0 then
        debianizeGo v ex tmpdir annexsa fs rest
      else if runS ex (dockerRunCmd tmpdir) > 0 then
        -- docker_cleanup(); return  (an early plain `return`, i.e. None)
        let _k := runS ex dockerKillCmd
        let _r := runS ex dockerRmCmd
        .ok (fs, none)
      else
        let dest := debName v
        let fs1 := fsCreate (if lexists fs dest then fsRemove fs dest else fs) dest
        match debianizeGo v ex tmpdir annexsa fs1 rest with
        | .error e => .error e
        | .ok (fs2, none) => .ok (fs2, none)
        | .ok (fs2, some debs) => .ok (fs2, some (dest :: debs))

/-- `debianize`: defensive container cleanup, one `docker build` whose
exit status is never inspected (line 259 of the source), then the
per-binary container builds. -/
def debianize (v : String) (ex : Exec) (tmpdir : String) (fs : FS)
    (binfiles : List String) (annexsa : Option String) :
    Except PyErr (FS × Option (List String)) :=
  let _k := runS ex dockerKillCmd
  let _r := runS ex dockerRmCmd
  let _build := runS ex dockerBuildCmd
  match debianizeGo v ex tmpdir annexsa fs binfiles with
  | .error e => .error e
  | .ok (fs2, r) =>
    -- final docker_cleanup() on the normal exit path
    let _k2 := runS ex dockerKillCmd
    let _r2 := runS ex dockerRmCmd
    .ok (fs2, r)

/-- `rpmify` is a stub in the source: it packages nothing. -/
def rpmify (_binfiles : List String) (_annexsa : Option String) : List String := []

/-! ### macOS bundle packager -/

/-- Bundle archive name: `gin-cli-{version}-{osarch}-bundle.tar.gz` with
`darwin → macos` substituted. -/
def macBundleArcName (v binf : String) : String :=
  joinP PKGDIR ("gin-cli-" ++ v ++ "-" ++ pyReplace (osarchOf binf) "darwin" "macos" ++ "-bundle.tar.gz")

/-- `package_mac_bundle`: per binary, extract the companion annex app
into a scratch directory (the archive path may be `None` when the
tarball was not found), rearrange the bundle there, then tar it up.
Failures of either tar are logged and skip that binary. -/
def package_mac_bundle (v : String) (ex : Exec) (cwd tmpdir : String) (annex_tar : Option String) :
    FS → List String → Except PyErr (FS × List String)
  | fs, [] => .ok (fs, [])
  | fs, binf :: rest =>
    match runCmd ex [some "tar", some "-xjf", annex_tar, some "-C", some tmpdir] with
    | .error e => .error e
    | .ok rx =>
      if rx > 0 then
        package_mac_bundle v ex cwd tmpdir annex_tar fs rest
      else
        -- bundle staging (moves, plist rewrite, icon removal) in tmpdir
        let pkgroot := joinP tmpdir "gin-cli"
        let arc := macBundleArcName v binf
        let fs1 := if lexists fs arc then fsRemove fs arc else fs
        let arc_abs := pyAbspath cwd arc
        if runS ex ["tar", "-cvf", arc_abs, "-C", pkgroot, "."] > 0 then
          package_mac_bundle v ex cwd tmpdir annex_tar fs1 rest
        else
          match package_mac_bundle v ex cwd tmpdir annex_tar (fsCreate fs1 arc) rest with
          | .error e => .error e
          | .ok (fs2, arcs) => .ok (fs2, arc :: arcs)

/-! ### Windows packager -/

/-- Windows archive name: `gin-cli-{version}-{osarch}.zip`. -/
def winArcName (v binf : String) : String :=
  joinP PKGDIR ("gin-cli-" ++ v ++ "-" ++ osarchOf binf ++ ".zip")

/-- `winbundle`: per binary, stage the binary and scripts, extract the
portable git and the annex installer (either may be `None` when its
download failed — the command join then raises `TypeError`), and zip the
tree.  A failed extraction or zip skips that binary. -/
def winbundle (v : String) (ex : Exec) (cwd tmpdir : String) (git_pkg annex_pkg : Option String) :
    FS → List String → Except PyErr (FS × List String)
  | fs, [] => .ok (fs, [])
  | fs, binf :: rest =>
    let gitdir := joinP (joinP tmpdir "gin") "git"
    match runCmd ex [some "7z", some "x", some ("-o" ++ gitdir), git_pkg] with
    | .error e => .error e
    | .ok r1 =>
      if r1 > 0 then
        winbundle v ex cwd tmpdir git_pkg annex_pkg fs rest
      else
        match runCmd ex [some "7z", some "x", some ("-o" ++ gitdir), annex_pkg] with
        | .error e => .error e
        | .ok r2 =>
          if r2 > 0 then
            winbundle v ex cwd tmpdir git_pkg annex_pkg fs rest
          else
            let arc := winArcName v binf
            let fs1 := if lexists fs arc then fsRemove fs arc else fs
            let arc_abs := pyAbspath cwd arc
            -- os.chdir(pkgroot); zip; os.chdir(oldwd)
            if runS ex ["zip", "-r", arc_abs, "."] > 0 then
              winbundle v ex cwd tmpdir git_pkg annex_pkg fs1 rest
            else
              match winbundle v ex cwd tmpdir git_pkg annex_pkg (fsCreate fs1 arc) rest with
              | .error e => .error e
              | .ok (fs2, arcs) => .ok (fs2, arc :: arcs)

/-! ### Latest-publisher (`link_latest`) -/

/-- Observable filesystem operations of `link_latest`. -/
inductive FSOp where
  | unlink (p : String)
  | link (src dst : String)
  deriving DecidableEq, Repr

/-- The alias name: `fname.replace(VERSION["version"], "latest")`. -/
def aliasOf (v fname : String) : String := pyReplace fname v "latest"

/-- The conditional removal step `if os.path.lexists(latestname):
os.unlink(latestname)` — the filesystem after it. -/
def unlinkStage (v fname : String) (fs : FS) : FS :=
  if lexists fs (aliasOf v fname) then fsRemove fs (aliasOf v fname) else fs

/-- The operations emitted by the conditional removal step. -/
def unlinkOps (v fname : String) (fs : FS) : List FSOp :=
  if lexists fs (aliasOf v fname) then [FSOp.unlink (aliasOf v fname)] else []

/-- The loop body of `link_latest`: alias name by textual substitution of
the version with "latest", unlink an existing alias, then one hard link. -/
def link_latestGo (v : String) : FS → List String → Except PyErr (FS × List FSOp)
  | fs, [] => .ok (fs, [])
  | fs, fname :: rest =>
    match osLink (unlinkStage v fname fs) fname (aliasOf v fname) with
    | .error e => .error e
    | .ok fs2 =>
      match link_latestGo v fs2 rest with
      | .error e => .error e
      | .ok (fs3, ops) =>
        .ok (fs3, unlinkOps v fname fs ++ FSOp.link fname (aliasOf v fname) :: ops)

/-- `link_latest(lst)` — an empty (or `None`, equally falsy) list returns
immediately. -/
def link_latest (v : String) (lst : List String) (fs : FS) : Except PyErr (FS × List FSOp) :=
  if lst.isEmpty then .ok (fs, []) else link_latestGo v fs lst

/-- Decides that every unlink in an operation trace is immediately
followed by a link that re-creates the very name just removed. -/
def unlinkThenLink : List FSOp → Bool
  | [] => true
  | FSOp.unlink p :: rest =>
    match rest with
    | FSOp.link _ d :: _ => (d == p) && unlinkThenLink rest
    | _ => false
  | FSOp.link _ _ :: rest => unlinkThenLink rest

/-! ### The packaging-and-publishing part of `main`

Lines 541–603 of the source: partition the binaries by platform substring,
run every packager, then print the report and create the "latest" aliases.
`deb_pkgs` may be Python `None` (the early return of `debianize`);
`printlist` and `link_latest` treat `None` and the empty list identically
(both falsy), which `Option.getD []` captures. -/

structure RunSummary where
  fs : FS
  linux_pkgs : List String
  deb_pkgs : Option (List String)
  rpm_pkgs : List String
  mac_pkgs : List String
  mac_bundles : List String
  win_pkgs : List String
  deriving DecidableEq, Repr

def packageAndPublish (v : String) (ex : Exec) (cwd tmpdirDeb tmpdirMac tmpdirWin : String)
    (fs : FS) (binfiles : List String)
    (annexsa_file win_git_file win_git_annex_file mac_annex_tar : Option String) :
    Except PyErr RunSummary :=
  let linux_bins := binfiles.filter (fun b => containsSub b "linux")
  let win_bins := binfiles.filter (fun b => containsSub b "windows")
  let darwin_bins := binfiles.filter (fun b => containsSub b "darwin")
  let (fs, linux_pkgs) := package_linux_plain v ex fs linux_bins
  match debianize v ex tmpdirDeb fs linux_bins annexsa_file with
  | .error e => .error e
  | .ok (fs, deb_pkgs) =>
    let rpm_pkgs := rpmify linux_bins annexsa_file
    let (fs, mac_pkgs) := package_mac_plain v ex fs darwin_bins
    match package_mac_bundle v ex cwd tmpdirMac mac_annex_tar fs darwin_bins with
    | .error e => .error e
    | .ok (fs, mac_bundles) =>
      match winbundle v ex cwd tmpdirWin win_git_file win_git_annex_file fs win_bins with
      | .error e => .error e
      | .ok (fs, win_pkgs) =>
        match link_latest v linux_pkgs fs with
        | .error e => .error e
        | .ok (fs, _) =>
          match link_latest v (deb_pkgs.getD []) fs with
          | .error e => .error e
          | .ok (fs, _) =>
            match link_latest v rpm_pkgs fs with
            | .error e => .error e
            | .ok (fs, _) =>
              match link_latest v mac_pkgs fs with
              | .error e => .error e
              | .ok (fs, _) =>
                match link_latest v mac_bundles fs with
                | .error e => .error e
                | .ok (fs, _) =>
                  match link_latest v win_pkgs fs with
                  | .error e => .error e
                  | .ok (fs, _) =>
                    .ok ⟨fs, linux_pkgs, deb_pkgs, rpm_pkgs, mac_pkgs, mac_bundles, win_pkgs⟩

/-- True when a run completed normally (zero process exit); false when an
exception or `sys.exit` escaped. -/
def runOk : Except PyErr RunSummary → Bool
  | .ok _ => true
  | .error _ => false

/-! ### Oracles used by concrete scenarios -/

/-- All external commands succeed. -/
def okExec : Exec := fun _ => 0

/-- Only the in-container Debian build (`docker run …`) fails. -/
def debRunFailExec : Exec := fun cmd => if cmd.take 2 = ["docker", "run"] then 1 else 0

/-- Only the container-image build fails. -/
def imageBuildFailExec : Exec := fun cmd => if cmd = dockerBuildCmd then 1 else 0

/-- The plain-string form of the annex-standalone extraction command when
the archive path is present. -/
def annexTarCmdS (tmpdir a : String) : List String :=
  ["tar", "-xzf", a, "-C", optGinDirOf tmpdir]

/-! ## Claims about the downloader -/

/-- C6: on a connection error while issuing the request, `download` logs
and returns `None` ("no artifact") instead of raising, with the in-memory
ledger (and the filesystem) left unchanged and no body bytes transferred. -/
theorem download_connection_error_returns_none (st : DLState) (url : String)
    (fnameArg : Option String) :
    download st url fnameArg none = .ok (none, st, []) := rfl

/-- C10: when the response carries no content-length header, `download`
raises (`int(None)` is a `TypeError`) instead of returning a path or
`None`. -/
theorem download_missing_content_length_raises (st : DLState) (url : String)
    (fnameArg : Option String) (etag : Option String) (chunks : List Nat) :
    download st url fnameArg (some ⟨none, etag, chunks⟩) = .error .typeError := rfl

/-- C4: when the ledger's stored validator for the URL exists and equals
the server's current validator, and a local file of exactly the reported
size exists at the resolved destination, `download` transfers zero body
bytes, leaves all state unchanged, and returns the existing path. -/
theorem download_cache_hit_skips_transfer (st : DLState) (url : String)
    (fnameArg : Option String) (r : Response) (t : String) (size : Int) (sz : Nat)
    (hledger : List.lookup url st.etags = some (some t))
    (hetag : r.etag = some t)
    (hsize : pyIntOfHeader r.contentLength = .ok size)
    (hfile : List.lookup (resolveDest url fnameArg) st.files = some sz)
    (hmatch : (sz : Int) = size) :
    download st url fnameArg (some r) = .ok (some (resolveDest url fnameArg), st, []) := by
  have hhit : cacheHit st url (resolveDest url fnameArg) r.etag size = true := by
    unfold cacheHit
    rw [hledger, hetag, hfile]
    simp [Option.join, hmatch]
  simp only [download, hsize, hhit, if_true]

/-- C4 witness. -/
theorem download_cache_hit_skips_transfer_witness :
    download ⟨[("u", some "E")], [("dist/downloads/f", 512)]⟩ "u" (some "f")
        (some ⟨some "512", some "E", []⟩)
      = .ok (some "dist/downloads/f", ⟨[("u", some "E")], [("dist/downloads/f", 512)]⟩, []) :=
  download_cache_hit_skips_transfer _ "u" (some "f") _ "E" 512 512 (by decide) rfl
    rfl (by decide) (by decide)

/-- C5, corrected: on a cache miss `download` does stream the full body
from byte 0 to the destination (overwriting) and does leave the ledger at
the new validator — but the ledger assignment `ETAGS[url] = etag` is the
first event of the transfer, before any body byte is written, not an
update made as the transfer completes. -/
theorem download_miss_streams_with_etag_set_first (st : DLState) (url : String)
    (fnameArg : Option String) (r : Response) (size : Int)
    (hsize : pyIntOfHeader r.contentLength = .ok size)
    (hmiss : cacheHit st url (resolveDest url fnameArg) r.etag size = false)
    (hdiv : ¬(size = 0 ∧ r.chunks ≠ [])) :
    download st url fnameArg (some r)
      = .ok (some (resolveDest url fnameArg),
          ⟨(url, r.etag) :: st.etags, (resolveDest url fnameArg, r.chunks.sum) :: st.files⟩,
          .setEtag url r.etag :: r.chunks.map .writeChunk) := by
  have hz : (size == 0 && !r.chunks.isEmpty) = false := by
    rcases not_and_or.mp hdiv with h | h
    · simp [beq_eq_false_iff_ne.mpr h]
    · simp [not_not.mp h]
  simp only [download, hsize, hmiss, hz, Bool.false_eq_true, if_false]

/-- C5 witness (for the corrected statement). -/
theorem download_miss_streams_with_etag_set_first_witness :
    download ⟨[], []⟩ "http://host/file" none (some ⟨some "100", some "E2", [100]⟩)
      = .ok (some "dist/downloads/file",
          ⟨[("http://host/file", some "E2")], [("dist/downloads/file", 100)]⟩,
          [.setEtag "http://host/file" (some "E2"), .writeChunk 100]) :=
  download_miss_streams_with_etag_set_first _ "http://host/file" none _ 100 rfl
    (by decide) (by decide)

/-- C5 counterexample to the claim as stated: a concrete cache-miss call
whose event trace assigns the ledger entry before the body chunks are
written, so the ledger does not hold the new validator "only once the
full body has been written". -/
theorem download_updates_ledger_before_body :
    download ⟨[], []⟩ "http://x/f" none (some ⟨some "512", some "E", [256, 256]⟩)
      = .ok (some "dist/downloads/f",
          ⟨[("http://x/f", some "E")], [("dist/downloads/f", 512)]⟩,
          [.setEtag "http://x/f" (some "E"), .writeChunk 256, .writeChunk 256])
    ∧ etagAfterBody
        [.setEtag "http://x/f" (some "E"), .writeChunk 256, .writeChunk 256] = false :=
  ⟨rfl, by decide⟩

/-! ## Claims about the packagers -/

/-- C9: with resolved version "2.3.4-dev" and a binary under the
`linux-amd64` platform directory, the plain Linux archive is exactly
`gin-cli-2.3.4-dev-linux-amd64.tar.gz`, placed under the package output
directory `dist/pkg`. -/
theorem linux_plain_filename_scheme :
    package_linux_plain "2.3.4-dev" okExec ⟨[], 0⟩ ["dist/linux-amd64/gin"]
      = (⟨[("dist/pkg/gin-cli-2.3.4-dev-linux-amd64.tar.gz", 0)], 1⟩,
         ["dist/pkg/gin-cli-2.3.4-dev-linux-amd64.tar.gz"]) := by decide

/-- C1, evaluating the code at the failing input: a run in which only the
Windows portable-git download fails (the downloader returned `None`) and
every external command succeeds.  All pre-Windows packagers run, but the
Windows packaging step then joins `None` into its extraction command and
the run dies with an uncaught `TypeError` — it does not exit zero, and no
(empty) Windows artifact list is ever reported. -/
theorem run_crashes_when_windows_git_download_fails :
    packageAndPublish "1.0.0" okExec "/w" "/tmp/d" "/tmp/m" "/tmp/w" ⟨[], 0⟩
        ["dist/linux-amd64/gin", "dist/windows-386/gin.exe", "dist/darwin-amd64/gin"]
        (some "dist/downloads/git-annex-standalone-amd64.tar.gz")
        none
        (some "dist/downloads/git-annex-installer.exe")
        (some "dist/downloads/git-annex-latest.tar.bz2")
      = .error .typeError := rfl

/-- C2 counterexample: a run whose first in-container Debian build fails
completes normally (zero process exit) — `debianize` returns early but
the run does not abort with a non-zero exit. -/
theorem run_exits_zero_after_first_deb_failure :
    runOk (packageAndPublish "1.0" debRunFailExec "/w" "/tmp/d" "/tmp/m" "/tmp/w" ⟨[], 0⟩
        ["dist/linux-amd64/gin"]
        (some "dist/downloads/annex.tar.gz") (some "g") (some "a") (some "m")) = true := by
  decide

/-- C2, amended: when the first in-container Debian packaging invocation
exits non-zero, all remaining Debian packaging is abandoned — `debianize`
returns early with no artifact list and no deb file is produced for any
binary — but it returns normally to its caller (after a diagnostic
message and container cleanup) rather than aborting the process. -/
theorem debianize_first_container_failure_abandons_rest (v : String) (ex : Exec)
    (tmpdir : String) (fs : FS) (b : String) (rest : List String) (a : String)
    (htar : ex (annexTarCmdS tmpdir a) ≤ 0)
    (hrun : ex (dockerRunCmd tmpdir) > 0) :
    debianize v ex tmpdir fs (b :: rest) (some a) = .ok (fs, none) := by
  simp only [annexTarCmdS] at htar
  simp only [debianize, debianizeGo, runCmd, annexTarCmd, allSome, Option.map, runS]
  rw [if_neg (not_lt.mpr htar), if_pos hrun]

/-- C2 witness (for the amended statement). -/
theorem debianize_first_container_failure_abandons_rest_witness :
    debianize "1.0" debRunFailExec "/tmp/d" ⟨[], 0⟩ ["b1", "b2"] (some "a")
      = .ok (⟨[], 0⟩, none) :=
  debianize_first_container_failure_abandons_rest "1.0" debRunFailExec "/tmp/d" ⟨[], 0⟩
    "b1" ["b2"] "a" (by decide) (by decide)

/-- C3 counterexample: with only the container-image build (`docker
build`) failing, the process does not halt — Debian packaging proceeds
and even produces its package. -/
theorem deb_packaging_proceeds_despite_image_build_failure :
    debianize "1.0" imageBuildFailExec "/tmp/t" ⟨[], 0⟩ ["dist/linux-amd64/gin"]
        (some "dist/downloads/annex.tar.gz")
      = .ok (⟨[("dist/pkg/gin-cli-1.0.deb", 0)], 1⟩, some ["dist/pkg/gin-cli-1.0.deb"]) := rfl

/-- Helper for C3: the per-binary Debian loop never consults the exit
status of the image-build command. -/
theorem debianizeGo_ignores_build_cmd (v : String) (ex1 ex2 : Exec) (tmpdir : String)
    (annexsa : Option String) (h : ∀ c, c ≠ dockerBuildCmd → ex1 c = ex2 c) :
    ∀ bins fs, debianizeGo v ex1 tmpdir annexsa fs bins
      = debianizeGo v ex2 tmpdir annexsa fs bins := by
  intro bins
  induction bins with
  | nil => intro fs; rfl
  | cons b rest ih =>
    intro fs
    cases annexsa with
    | none => rfl
    | some a =>
      have hta : ex1 (annexTarCmdS tmpdir a) = ex2 (annexTarCmdS tmpdir a) :=
        h _ (by simp [annexTarCmdS, dockerBuildCmd])
      have hdr : ex1 (dockerRunCmd tmpdir) = ex2 (dockerRunCmd tmpdir) :=
        h _ (by simp [dockerRunCmd, dockerBuildCmd])
      simp only [annexTarCmdS] at hta
      simp only [debianizeGo, runCmd, annexTarCmd, allSome, Option.map, runS, hta, hdr]
      by_cases hr : ex2 ["tar", "-xzf", a, "-C", optGinDirOf tmpdir] > 0
      · rw [if_pos hr, if_pos hr]
        exact ih fs
      · rw [if_neg hr, if_neg hr]
        by_cases hd : ex2 (dockerRunCmd tmpdir) > 0
        · rw [if_pos hd, if_pos hd]
        · rw [if_neg hd, if_neg hd, ih]

/-- C3, amended: the exit status of the container-image build command is
ignored — `debianize` (and hence the whole run) behaves identically
whatever `docker build` returns, instead of halting the process on its
failure. -/
theorem debianize_ignores_image_build_status (v : String) (ex1 ex2 : Exec) (tmpdir : String)
    (fs : FS) (binfiles : List String) (annexsa : Option String)
    (h : ∀ c, c ≠ dockerBuildCmd → ex1 c = ex2 c) :
    debianize v ex1 tmpdir fs binfiles annexsa = debianize v ex2 tmpdir fs binfiles annexsa := by
  unfold debianize
  rw [debianizeGo_ignores_build_cmd v ex1 ex2 tmpdir annexsa h binfiles fs]

/-- C3 witness (for the amended statement). -/
theorem debianize_ignores_image_build_status_witness :
    debianize "1.0" imageBuildFailExec "/t" ⟨[], 0⟩ ["dist/linux-amd64/gin"] (some "a")
      = debianize "1.0" okExec "/t" ⟨[], 0⟩ ["dist/linux-amd64/gin"] (some "a") :=
  debianize_ignores_image_build_status "1.0" imageBuildFailExec okExec "/t" ⟨[], 0⟩
    ["dist/linux-amd64/gin"] (some "a")
    (fun c hc => by simp [imageBuildFailExec, okExec, hc])

/-! ## Claims about the latest-publisher -/

/-- Removing one path leaves lookups at other keys unchanged. -/
theorem lookup_filter_ne {β : Type} (entries : List (String × β)) (p q : String) (hq : q ≠ p) :
    List.lookup q (entries.filter (fun kv => kv.1 != p)) = List.lookup q entries := by
  induction entries with
  | nil => rfl
  | cons kv tl ih =>
    obtain ⟨k, val⟩ := kv
    by_cases hk : k = p
    · subst hk
      simp only [List.filter_cons, bne_self_eq_false, if_false, Bool.false_eq_true, ih]
      rw [List.lookup_cons]
      have : (q == k) = false := by simp [hq]
      rw [this]
    · simp only [List.filter_cons]
      have hkp : (k != p) = true := by simp [hk]
      rw [hkp, if_pos rfl]
      by_cases hqk : q = k
      · subst hqk
        rw [List.lookup_cons, List.lookup_cons]
        simp
      · rw [List.lookup_cons, List.lookup_cons]
        have : (q == k) = false := by simp [hqk]
        rw [this, ih]

/-- Characterization of a successful `os.link`. -/
theorem osLink_ok (fs fs2 : FS) (src dst : String) (h : osLink fs src dst = .ok fs2) :
    ∃ ino, List.lookup src fs.entries = some ino ∧ lexists fs dst = false
      ∧ fs2 = ⟨(dst, ino) :: fs.entries, fs.next⟩ := by
  unfold osLink at h
  cases hs : List.lookup src fs.entries with
  | none => rw [hs] at h; exact absurd h (by simp)
  | some ino =>
    rw [hs] at h
    dsimp only at h
    by_cases hd : lexists fs dst
    · rw [if_pos hd] at h; exact absurd h (by simp)
    · rw [if_neg hd] at h
      exact ⟨ino, rfl, by simp [hd], by injection h with h2; exact h2.symm⟩

/-- Destructuring of one successful `link_latest` loop iteration. -/
theorem link_latestGo_cons_ok (v fname : String) (rest : List String) (fs fs3 : FS)
    (ops : List FSOp)
    (h : link_latestGo v fs (fname :: rest) = .ok (fs3, ops)) :
    ∃ fs2 opsr,
      osLink (unlinkStage v fname fs) fname (aliasOf v fname) = .ok fs2
      ∧ link_latestGo v fs2 rest = .ok (fs3, opsr)
      ∧ ops = unlinkOps v fname fs ++ FSOp.link fname (aliasOf v fname) :: opsr := by
  simp only [link_latestGo] at h
  cases hos : osLink (unlinkStage v fname fs) fname (aliasOf v fname) with
  | error e => rw [hos] at h; exact absurd h (by simp)
  | ok fs2 =>
    rw [hos] at h
    dsimp only at h
    cases hrec : link_latestGo v fs2 rest with
    | error e => rw [hrec] at h; exact absurd h (by simp)
    | ok pr =>
      obtain ⟨fs3', opsr⟩ := pr
      rw [hrec] at h
      dsimp only at h
      injection h with h1
      rw [Prod.mk.injEq] at h1
      obtain ⟨hfs, hops⟩ := h1
      subst hfs
      exact ⟨fs2, opsr, rfl, hrec, hops.symm⟩

/-- Every link operation emitted by the publisher loop links an input
artifact to its computed alias. -/
theorem link_latestGo_links_are_aliases (v : String) :
    ∀ (lst : List String) (fs fs3 : FS) (ops : List FSOp),
      link_latestGo v fs lst = .ok (fs3, ops) →
      ∀ s d, FSOp.link s d ∈ ops → s ∈ lst ∧ d = aliasOf v s := by
  intro lst
  induction lst with
  | nil =>
    intro fs fs3 ops h s d hm
    simp only [link_latestGo] at h
    injection h with h1
    rw [Prod.mk.injEq] at h1
    rw [← h1.2] at hm
    exact absurd hm (by simp)
  | cons f rest ih =>
    intro fs fs3 ops h s d hm
    obtain ⟨fs2, opsr, _hos, hrec, hops⟩ := link_latestGo_cons_ok v f rest fs fs3 ops h
    subst hops
    rcases List.mem_append.mp hm with h1 | h2
    · unfold unlinkOps at h1
      split at h1
      · simp at h1
      · simp at h1
    · rcases List.mem_cons.mp h2 with h3 | h4
      · injection h3 with hs hd
        rw [hs, hd]
        exact ⟨List.mem_cons_self f rest, rfl⟩
      · obtain ⟨hmem, hal⟩ := ih fs2 fs3 opsr hrec s d h4
        exact ⟨List.mem_cons_of_mem f hmem, hal⟩

/-- The publisher loop emits a link operation for every input artifact. -/
theorem link_latestGo_links_every_artifact (v : String) :
    ∀ (lst : List String) (fs fs3 : FS) (ops : List FSOp),
      link_latestGo v fs lst = .ok (fs3, ops) →
      ∀ f ∈ lst, FSOp.link f (aliasOf v f) ∈ ops := by
  intro lst
  induction lst with
  | nil => intro fs fs3 ops _ f hf; exact absurd hf (by simp)
  | cons g rest ih =>
    intro fs fs3 ops h f hf
    obtain ⟨fs2, opsr, _hos, hrec, hops⟩ := link_latestGo_cons_ok v g rest fs fs3 ops h
    subst hops
    rcases List.mem_cons.mp hf with h1 | h2
    · subst h1
      exact List.mem_append.mpr (Or.inr (List.mem_cons_self _ _))
    · exact List.mem_append.mpr (Or.inr (List.mem_cons_of_mem _ (ih fs2 fs3 opsr hrec f h2)))

/-- Every unlink operation emitted by the publisher loop removes the
alias of one of the input artifacts. -/
theorem link_latestGo_unlinks_are_aliases (v : String) :
    ∀ (lst : List String) (fs fs3 : FS) (ops : List FSOp),
      link_latestGo v fs lst = .ok (fs3, ops) →
      ∀ p, FSOp.unlink p ∈ ops → ∃ f, f ∈ lst ∧ p = aliasOf v f := by
  intro lst
  induction lst with
  | nil =>
    intro fs fs3 ops h p hm
    simp only [link_latestGo] at h
    injection h with h1
    rw [Prod.mk.injEq] at h1
    rw [← h1.2] at hm
    exact absurd hm (by simp)
  | cons f rest ih =>
    intro fs fs3 ops h p hm
    obtain ⟨fs2, opsr, _hos, hrec, hops⟩ := link_latestGo_cons_ok v f rest fs fs3 ops h
    subst hops
    rcases List.mem_append.mp hm with h1 | h2
    · unfold unlinkOps at h1
      split at h1
      · rcases List.mem_singleton.mp h1 with h3
        injection h3 with h4
        exact ⟨f, List.mem_cons_self f rest, h4⟩
      · simp at h1
    · rcases List.mem_cons.mp h2 with h3 | h4
      · exact absurd h3 (by simp)
      · obtain ⟨g, hg, hp⟩ := ih fs2 fs3 opsr hrec p h4
        exact ⟨g, List.mem_cons_of_mem f hg, hp⟩

/-- In the publisher's operation trace, every removal of an existing
alias is immediately followed by the hard link re-creating that alias. -/
theorem link_latestGo_unlink_then_link (v : String) :
    ∀ (lst : List String) (fs fs3 : FS) (ops : List FSOp),
      link_latestGo v fs lst = .ok (fs3, ops) →
      unlinkThenLink ops = true := by
  intro lst
  induction lst with
  | nil =>
    intro fs fs3 ops h
    simp only [link_latestGo] at h
    injection h with h1
    rw [Prod.mk.injEq] at h1
    rw [← h1.2]
    rfl
  | cons f rest ih =>
    intro fs fs3 ops h
    obtain ⟨fs2, opsr, _hos, hrec, hops⟩ := link_latestGo_cons_ok v f rest fs fs3 ops h
    subst hops
    have htail := ih fs2 fs3 opsr hrec
    unfold unlinkOps
    split
    · simp [unlinkThenLink, htail]
    · simp [unlinkThenLink, htail]

/-- The conditional alias removal leaves every other path alone. -/
theorem lookup_unlinkStage (v f : String) (fs : FS) (q : String) (hq : q ≠ aliasOf v f) :
    List.lookup q (unlinkStage v f fs).entries = List.lookup q fs.entries := by
  unfold unlinkStage
  split
  · exact lookup_filter_ne fs.entries (aliasOf v f) q hq
  · rfl

/-- The publisher loop touches no path other than the aliases of its
inputs. -/
theorem link_latestGo_preserves_others (v : String) :
    ∀ (lst : List String) (fs fs3 : FS) (ops : List FSOp) (q : String),
      link_latestGo v fs lst = .ok (fs3, ops) →
      (∀ g ∈ lst, q ≠ aliasOf v g) →
      List.lookup q fs3.entries = List.lookup q fs.entries := by
  intro lst
  induction lst with
  | nil =>
    intro fs fs3 ops q h _
    simp only [link_latestGo] at h
    injection h with h1
    rw [Prod.mk.injEq] at h1
    rw [← h1.1]
  | cons f rest ih =>
    intro fs fs3 ops q h hq
    obtain ⟨fs2, opsr, hos, hrec, _hops⟩ := link_latestGo_cons_ok v f rest fs fs3 ops h
    obtain ⟨ino, _hsrc, _hnd, hfs2⟩ := osLink_ok _ _ _ _ hos
    have h1 : List.lookup q fs3.entries = List.lookup q fs2.entries :=
      ih fs2 fs3 opsr q hrec (fun g hg => hq g (List.mem_cons_of_mem f hg))
    have hqf : q ≠ aliasOf v f := hq f (List.mem_cons_self f rest)
    have h2 : List.lookup q fs2.entries = List.lookup q fs.entries := by
      rw [hfs2]
      rw [List.lookup_cons]
      have : (q == aliasOf v f) = false := by simp [hqf]
      rw [this]
      exact lookup_unlinkStage v f fs q hqf
    rw [h1, h2]

/-- Hard-link correctness of the publisher loop: when the aliases are
fresh names (no alias collides with an artifact path and the aliases are
pairwise distinct), each alias ends up with exactly the content identity
of its artifact, and the artifacts themselves are untouched. -/
theorem link_latestGo_hardlinks (v : String) :
    ∀ (lst : List String) (fs fs3 : FS) (ops : List FSOp),
      link_latestGo v fs lst = .ok (fs3, ops) →
      (∀ f ∈ lst, aliasOf v f ∉ lst) →
      (lst.map (fun f => aliasOf v f)).Nodup →
      ∀ f ∈ lst, List.lookup (aliasOf v f) fs3.entries = List.lookup f fs.entries
        ∧ List.lookup f fs3.entries = List.lookup f fs.entries := by
  intro lst
  induction lst with
  | nil => intro fs fs3 ops _ _ _ f hf; exact absurd hf (by simp)
  | cons g rest ih =>
    intro fs fs3 ops h hdisj hnd f hf
    obtain ⟨fs2, opsr, hos, hrec, _hops⟩ := link_latestGo_cons_ok v g rest fs fs3 ops h
    obtain ⟨ino, hsrc, _hnodst, hfs2⟩ := osLink_ok _ _ _ _ hos
    have hgna : g ≠ aliasOf v g := by
      intro hcon
      exact hdisj g (List.mem_cons_self g rest) (hcon ▸ List.mem_cons_self g rest)
    have hsrc_fs : List.lookup g fs.entries = some ino := by
      rw [← lookup_unlinkStage v g fs g hgna]
      exact hsrc
    rcases List.mem_cons.mp hf with hfg | hfr
    · subst hfg
      constructor
      · have hpres : List.lookup (aliasOf v f) fs3.entries = List.lookup (aliasOf v f) fs2.entries := by
          apply link_latestGo_preserves_others v rest fs2 fs3 opsr (aliasOf v f) hrec
          intro g2 hg2 hcon
          rw [List.map_cons, List.nodup_cons] at hnd
          exact hnd.1 (hcon ▸ List.mem_map_of_mem (fun x => aliasOf v x) hg2)
        rw [hpres, hfs2, List.lookup_cons]
        simp [hsrc_fs]
      · have hpres : List.lookup f fs3.entries = List.lookup f fs2.entries := by
          apply link_latestGo_preserves_others v rest fs2 fs3 opsr f hrec
          intro g2 hg2 hcon
          exact hdisj g2 (List.mem_cons_of_mem f hg2) (hcon ▸ List.mem_cons_self f rest)
        rw [hpres, hfs2, List.lookup_cons]
        have : (f == aliasOf v f) = false := by simp [hgna]
        rw [this]
        exact lookup_unlinkStage v f fs f hgna
    · have hdisj' : ∀ x ∈ rest, aliasOf v x ∉ rest :=
        fun x hx hcon => hdisj x (List.mem_cons_of_mem g hx) (List.mem_cons_of_mem g hcon)
      have hnd' : (rest.map (fun x => aliasOf v x)).Nodup := by
        rw [List.map_cons, List.nodup_cons] at hnd
        exact hnd.2
      obtain ⟨ha, hb⟩ := ih fs2 fs3 opsr hrec hdisj' hnd' f hfr
      have hfng : f ≠ aliasOf v g := by
        intro hcon
        exact hdisj g (List.mem_cons_self g rest) (hcon ▸ List.mem_cons_of_mem g hfr)
      have hf2 : List.lookup f fs2.entries = List.lookup f fs.entries := by
        rw [hfs2, List.lookup_cons]
        have : (f == aliasOf v g) = false := by simp [hfng]
        rw [this]
        exact lookup_unlinkStage v g fs f hfng
      have hana : aliasOf v f ≠ aliasOf v g := by
        rw [List.map_cons, List.nodup_cons] at hnd
        intro hcon
        exact hnd.1 (hcon ▸ List.mem_map_of_mem (fun x => aliasOf v x) hfr)
      have ha2 : List.lookup (aliasOf v f) fs2.entries = List.lookup (aliasOf v f) fs.entries := by
        rw [hfs2, List.lookup_cons]
        have : (aliasOf v f == aliasOf v g) = false := by simp [hana]
        rw [this]
        exact lookup_unlinkStage v g fs (aliasOf v f) hana
      refine ⟨?_, ?_⟩
      · rw [ha, hf2]
      · rw [hb, hf2]

/-- C7: for every artifact path in a list passed to the latest-publisher,
the alias name is the artifact path with the resolved version substituted
by the literal "latest"; an existing entry at the alias name is removed
first and immediately re-created by a single hard-link operation (same
content identity, not a copy), and nothing but aliases is ever touched.
(The collision hypotheses hold for any real artifact list: aliases differ
from artifact names and from each other.) -/
theorem link_latest_publishes_aliases (v : String) (lst : List String) (fs fs' : FS)
    (ops : List FSOp)
    (h : link_latest v lst fs = .ok (fs', ops))
    (hdisj : ∀ f ∈ lst, aliasOf v f ∉ lst)
    (hnd : (lst.map (fun f => aliasOf v f)).Nodup) :
    (∀ s d, FSOp.link s d ∈ ops → s ∈ lst ∧ d = aliasOf v s)
    ∧ (∀ f ∈ lst, FSOp.link f (aliasOf v f) ∈ ops)
    ∧ (∀ p, FSOp.unlink p ∈ ops → ∃ f, f ∈ lst ∧ p = aliasOf v f)
    ∧ unlinkThenLink ops = true
    ∧ (∀ f ∈ lst, List.lookup (aliasOf v f) fs'.entries = List.lookup f fs.entries
        ∧ List.lookup f fs'.entries = List.lookup f fs.entries) := by
  unfold link_latest at h
  cases lst with
  | nil =>
    simp only [List.isEmpty_nil, if_true] at h
    injection h with h1
    rw [Prod.mk.injEq] at h1
    rw [← h1.1, ← h1.2]
    refine ⟨?_, ?_, ?_, rfl, ?_⟩ <;> simp
  | cons g rest =>
    simp only [List.isEmpty_cons, Bool.false_eq_true, if_false] at h
    exact ⟨link_latestGo_links_are_aliases v (g :: rest) fs fs' ops h,
           link_latestGo_links_every_artifact v (g :: rest) fs fs' ops h,
           link_latestGo_unlinks_are_aliases v (g :: rest) fs fs' ops h,
           link_latestGo_unlink_then_link v (g :: rest) fs fs' ops h,
           link_latestGo_hardlinks v (g :: rest) fs fs' ops h hdisj hnd⟩

/-- C7 witness: after publishing one artifact, the alias resolves to the
very content identity of the artifact. -/
theorem link_latest_publishes_aliases_witness :
    List.lookup (aliasOf "1.0" "dist/pkg/gin-cli-1.0-linux-amd64.tar.gz")
        (FS.mk [("dist/pkg/gin-cli-latest-linux-amd64.tar.gz", 7),
                ("dist/pkg/gin-cli-1.0-linux-amd64.tar.gz", 7)] 8).entries
      = List.lookup "dist/pkg/gin-cli-1.0-linux-amd64.tar.gz"
        (FS.mk [("dist/pkg/gin-cli-1.0-linux-amd64.tar.gz", 7)] 8).entries :=
  ((link_latest_publishes_aliases "1.0" ["dist/pkg/gin-cli-1.0-linux-amd64.tar.gz"]
      (FS.mk [("dist/pkg/gin-cli-1.0-linux-amd64.tar.gz", 7)] 8)
      (FS.mk [("dist/pkg/gin-cli-latest-linux-amd64.tar.gz", 7),
              ("dist/pkg/gin-cli-1.0-linux-amd64.tar.gz", 7)] 8)
      [FSOp.link "dist/pkg/gin-cli-1.0-linux-amd64.tar.gz"
                 "dist/pkg/gin-cli-latest-linux-amd64.tar.gz"]
      rfl (by decide) (by decide)).2.2.2.2
    "dist/pkg/gin-cli-1.0-linux-amd64.tar.gz" (by decide)).1

/-! ## Claim C8: every artifact filename embeds the version

`FilenameEmbeds v arc` states the spec's invariant for one artifact path:
the literal resolved version string occurs as a substring of the
artifact's filename (the part after the last slash), so a textual
substitution can locate it. -/

def FilenameEmbeds (v arc : String) : Prop :=
  ∃ pre suf : String, (osSplit arc).2 = pre ++ v ++ suf

/-- A string is its own character list. -/
theorem mk_data : ∀ s : String, (⟨s.data⟩ : String) = s
  | ⟨_⟩ => rfl

/-- `takeWhile` over a satisfying block followed by a failing separator. -/
theorem takeWhile_all_cons (p : Char → Bool) (l1 : List Char) (m : Char) (l2 : List Char)
    (h1 : ∀ c ∈ l1, p c = true) (h2 : p m = false) :
    (l1 ++ m :: l2).takeWhile p = l1 := by
  induction l1 with
  | nil => simp [List.takeWhile_cons, h2]
  | cons c cs ih =>
    rw [List.cons_append, List.takeWhile_cons, h1 c (List.mem_cons_self c cs)]
    rw [ih (fun x hx => h1 x (List.mem_cons_of_mem c hx))]
    simp

/-- The filename part of a path whose final component has no slashes. -/
theorem afterLastSlash_append (xs ys : List Char) (h : ∀ c ∈ ys, c ≠ '/') :
    afterLastSlash (xs ++ '/' :: ys) = ys := by
  unfold afterLastSlash
  have hrev : (xs ++ '/' :: ys).reverse = ys.reverse ++ '/' :: xs.reverse := by
    simp [List.reverse_append]
  rw [hrev]
  rw [takeWhile_all_cons _ ys.reverse '/' xs.reverse
    (fun c hc => by simp [h c (List.mem_reverse.mp hc)]) (by decide)]
  exact List.reverse_reverse ys

/-- Everything in `afterLastSlash` is slash-free. -/
theorem mem_afterLastSlash (cs : List Char) (c : Char) (h : c ∈ afterLastSlash cs) :
    c ≠ '/' := by
  unfold afterLastSlash at h
  have := List.mem_takeWhile_imp (List.mem_reverse.mp h)
  simpa using this

/-- The tail of `osSplit` is `afterLastSlash`. -/
theorem osSplit_snd (p : String) : (osSplit p).2 = ⟨afterLastSlash p.data⟩ := rfl

/-- `os.path.split` of a `PKGDIR` join recovers the slash-free filename. -/
theorem osSplit_joinP_pkgdir (name : String) (h : ∀ c ∈ name.data, c ≠ '/') :
    (osSplit (joinP PKGDIR name)).2 = name := by
  rw [osSplit_snd]
  have hdata : (joinP PKGDIR name).data = "dist/pkg".data ++ '/' :: name.data := by
    show (PKGDIR ++ "/" ++ name).data = _
    rw [String.data_append, String.data_append]
    rfl
  rw [hdata, afterLastSlash_append _ _ h]

/-- Slash-freeness is preserved by string append. -/
theorem no_slash_append (s t : String) (hs : ∀ c ∈ s.data, c ≠ '/')
    (ht : ∀ c ∈ t.data, c ≠ '/') : ∀ c ∈ (s ++ t).data, c ≠ '/' := by
  intro c hc
  rw [String.data_append] at hc
  rcases List.mem_append.mp hc with h1 | h2
  · exact hs c h1
  · exact ht c h2

/-- The `osarch` component extracted from a binary path never contains a
slash. -/
theorem no_slash_osarchOf (binf : String) : ∀ c ∈ (osarchOf binf).data, c ≠ '/' := by
  intro c hc
  have : (osarchOf binf) = ⟨afterLastSlash ((osSplit binf).1).data⟩ := osSplit_snd _
  rw [this] at hc
  exact mem_afterLastSlash _ c hc

/-- `replaceFuel` introduces no character outside the replacement and the
original string. -/
theorem no_slash_replaceFuel (pat repl : List Char) (hrepl : ∀ c ∈ repl, c ≠ '/') :
    ∀ (n : Nat) (s : List Char), (∀ c ∈ s, c ≠ '/') →
      ∀ c ∈ replaceFuel pat repl n s, c ≠ '/' := by
  intro n
  induction n with
  | zero => intro s hs c hc; exact hs c hc
  | succ m ih =>
    intro s hs c hc
    cases s with
    | nil => simp [replaceFuel] at hc
    | cons x xs =>
      rw [replaceFuel] at hc
      split at hc
      · rcases List.mem_append.mp hc with h1 | h2
        · exact hrepl c h1
        · exact ih (xs.drop (pat.length - 1))
            (fun y hy => hs y (List.mem_cons_of_mem x (List.drop_subset _ xs hy))) c h2
      · rcases List.mem_cons.mp hc with h1 | h2
        · exact h1 ▸ hs x (List.mem_cons_self x xs)
        · exact ih xs (fun y hy => hs y (List.mem_cons_of_mem x hy)) c h2

/-- `pyReplace` with a slash-free replacement preserves slash-freeness. -/
theorem no_slash_pyReplace (s pat repl : String) (hs : ∀ c ∈ s.data, c ≠ '/')
    (hrepl : ∀ c ∈ repl.data, c ≠ '/') :
    ∀ c ∈ (pyReplace s pat repl).data, c ≠ '/' := by
  unfold pyReplace
  cases hp : pat.data with
  | nil => exact hs
  | cons p ps =>
    intro c hc
    exact no_slash_replaceFuel pat.data repl.data hrepl s.data.length s.data hs c (by rw [hp]; exact hc)

/-- Any `gin-cli-<version><suffix>` name placed under `PKGDIR` embeds the
version in its filename, provided version and suffix are slash-free. -/
theorem filenameEmbeds_pkg (v t : String) (hv : ∀ c ∈ v.data, c ≠ '/')
    (ht : ∀ c ∈ t.data, c ≠ '/') :
    FilenameEmbeds v (joinP PKGDIR ("gin-cli-" ++ v ++ t)) :=
  ⟨"gin-cli-", t, osSplit_joinP_pkgdir _
    (no_slash_append _ _ (no_slash_append _ _ (by decide) hv) ht)⟩

/-- The Linux plain archive name embeds the version in its filename. -/
theorem filenameEmbeds_linuxArcName (v b : String) (hv : ∀ c ∈ v.data, c ≠ '/') :
    FilenameEmbeds v (linuxArcName v b) := by
  have heq : linuxArcName v b
      = joinP PKGDIR ("gin-cli-" ++ v ++ ("-" ++ osarchOf b ++ ".tar.gz")) := by
    unfold linuxArcName
    refine congrArg (joinP PKGDIR) (String.ext ?_)
    simp [String.data_append]
  rw [heq]
  exact filenameEmbeds_pkg v _ hv
    (no_slash_append _ _ (no_slash_append _ _ (by decide) (no_slash_osarchOf b)) (by decide))

/-- The macOS plain archive name embeds the version in its filename. -/
theorem filenameEmbeds_macArcName (v b : String) (hv : ∀ c ∈ v.data, c ≠ '/') :
    FilenameEmbeds v (macArcName v b) := by
  have heq : macArcName v b
      = joinP PKGDIR
          ("gin-cli-" ++ v ++ ("-" ++ pyReplace (osarchOf b) "darwin" "macos" ++ ".tar.gz")) := by
    unfold macArcName
    refine congrArg (joinP PKGDIR) (String.ext ?_)
    simp [String.data_append]
  rw [heq]
  exact filenameEmbeds_pkg v _ hv
    (no_slash_append _ _ (no_slash_append _ _ (by decide)
      (no_slash_pyReplace _ _ _ (no_slash_osarchOf b) (by decide))) (by decide))

/-- The macOS bundle archive name embeds the version in its filename. -/
theorem filenameEmbeds_macBundleArcName (v b : String) (hv : ∀ c ∈ v.data, c ≠ '/') :
    FilenameEmbeds v (macBundleArcName v b) := by
  have heq : macBundleArcName v b
      = joinP PKGDIR
          ("gin-cli-" ++ v
            ++ ("-" ++ pyReplace (osarchOf b) "darwin" "macos" ++ "-bundle.tar.gz")) := by
    unfold macBundleArcName
    refine congrArg (joinP PKGDIR) (String.ext ?_)
    simp [String.data_append]
  rw [heq]
  exact filenameEmbeds_pkg v _ hv
    (no_slash_append _ _ (no_slash_append _ _ (by decide)
      (no_slash_pyReplace _ _ _ (no_slash_osarchOf b) (by decide))) (by decide))

/-- The Windows archive name embeds the version in its filename. -/
theorem filenameEmbeds_winArcName (v b : String) (hv : ∀ c ∈ v.data, c ≠ '/') :
    FilenameEmbeds v (winArcName v b) := by
  have heq : winArcName v b
      = joinP PKGDIR ("gin-cli-" ++ v ++ ("-" ++ osarchOf b ++ ".zip")) := by
    unfold winArcName
    refine congrArg (joinP PKGDIR) (String.ext ?_)
    simp [String.data_append]
  rw [heq]
  exact filenameEmbeds_pkg v _ hv
    (no_slash_append _ _ (no_slash_append _ _ (by decide) (no_slash_osarchOf b)) (by decide))

/-- The Debian package name embeds the version in its filename. -/
theorem filenameEmbeds_debName (v : String) (hv : ∀ c ∈ v.data, c ≠ '/') :
    FilenameEmbeds v (debName v) :=
  filenameEmbeds_pkg v ".deb" hv (by decide)

/-- Every archive returned by the Linux plain packager carries a
`linuxArcName`. -/
theorem package_linux_plain_names (v : String) (ex : Exec) :
    ∀ (bins : List String) (fs : FS) (arc : String),
      arc ∈ (package_linux_plain v ex fs bins).2 → ∃ b, arc = linuxArcName v b := by
  intro bins
  induction bins with
  | nil => intro fs arc h; exact absurd h (by simp [package_linux_plain])
  | cons b rest ih =>
    intro fs arc h
    simp only [package_linux_plain] at h
    split at h
    · exact ih fs arc h
    · dsimp only at h
      rcases List.mem_cons.mp h with h1 | h2
      · exact ⟨b, h1⟩
      · exact ih _ arc h2

/-- Every archive returned by the macOS plain packager carries a
`macArcName`. -/
theorem package_mac_plain_names (v : String) (ex : Exec) :
    ∀ (bins : List String) (fs : FS) (arc : String),
      arc ∈ (package_mac_plain v ex fs bins).2 → ∃ b, arc = macArcName v b := by
  intro bins
  induction bins with
  | nil => intro fs arc h; exact absurd h (by simp [package_mac_plain])
  | cons b rest ih =>
    intro fs arc h
    simp only [package_mac_plain] at h
    split at h
    · exact ih fs arc h
    · dsimp only at h
      rcases List.mem_cons.mp h with h1 | h2
      · exact ⟨b, h1⟩
      · exact ih _ arc h2

/-- Every deb the Debian loop reports is the `debName`. -/
theorem debianizeGo_names (v : String) (ex : Exec) (tmpdir : String) (sa : Option String) :
    ∀ (bins : List String) (fs fs2 : FS) (debs : List String),
      debianizeGo v ex tmpdir sa fs bins = .ok (fs2, some debs) →
      ∀ arc ∈ debs, arc = debName v := by
  intro bins
  induction bins with
  | nil =>
    intro fs fs2 debs h arc harc
    simp only [debianizeGo] at h
    injection h with h1
    rw [Prod.mk.injEq] at h1
    have h2 : ([] : List String) = debs := by
      have := h1.2
      injection this
    rw [← h2] at harc
    exact absurd harc (by simp)
  | cons b rest ih =>
    intro fs fs2 debs h arc harc
    simp only [debianizeGo] at h
    split at h
    · simp at h
    · split at h
      · exact ih fs fs2 debs h arc harc
      · split at h
        · injection h with h1
          rw [Prod.mk.injEq] at h1
          exact absurd h1.2 (by simp)
        · split at h
          · simp at h
          · injection h with h1
            rw [Prod.mk.injEq] at h1
            exact absurd h1.2 (by simp)
          · rename_i fs3 debs3 heq
            injection h with h1
            rw [Prod.mk.injEq] at h1
            have h2 : debName v :: debs3 = debs := by
              have := h1.2
              injection this
            rw [← h2] at harc
            rcases List.mem_cons.mp harc with h3 | h4
            · exact h3
            · exact ih _ fs3 debs3 heq arc h4

/-- Every archive the macOS bundle packager reports carries a
`macBundleArcName`. -/
theorem package_mac_bundle_names (v : String) (ex : Exec) (cwd tmpdir : String)
    (mac_tar : Option String) :
    ∀ (bins : List String) (fs fs2 : FS) (arcs : List String),
      package_mac_bundle v ex cwd tmpdir mac_tar fs bins = .ok (fs2, arcs) →
      ∀ arc ∈ arcs, ∃ b, arc = macBundleArcName v b := by
  intro bins
  induction bins with
  | nil =>
    intro fs fs2 arcs h arc harc
    simp only [package_mac_bundle] at h
    injection h with h1
    rw [Prod.mk.injEq] at h1
    rw [← h1.2] at harc
    exact absurd harc (by simp)
  | cons b rest ih =>
    intro fs fs2 arcs h arc harc
    simp only [package_mac_bundle] at h
    split at h
    · simp at h
    · split at h
      · exact ih fs fs2 arcs h arc harc
      · split at h
        · exact ih _ fs2 arcs h arc harc
        · split at h
          · simp at h
          · rename_i fs3 arcs3 heq
            injection h with h1
            rw [Prod.mk.injEq] at h1
            rw [← h1.2] at harc
            rcases List.mem_cons.mp harc with h2 | h3
            · exact ⟨b, h2⟩
            · exact ih _ fs3 arcs3 heq arc h3

/-- Every archive the Windows packager reports carries a `winArcName`. -/
theorem winbundle_names (v : String) (ex : Exec) (cwd tmpdir : String)
    (git_pkg annex_pkg : Option String) :
    ∀ (bins : List String) (fs fs2 : FS) (arcs : List String),
      winbundle v ex cwd tmpdir git_pkg annex_pkg fs bins = .ok (fs2, arcs) →
      ∀ arc ∈ arcs, ∃ b, arc = winArcName v b := by
  intro bins
  induction bins with
  | nil =>
    intro fs fs2 arcs h arc harc
    simp only [winbundle] at h
    injection h with h1
    rw [Prod.mk.injEq] at h1
    rw [← h1.2] at harc
    exact absurd harc (by simp)
  | cons b rest ih =>
    intro fs fs2 arcs h arc harc
    simp only [winbundle] at h
    split at h
    · simp at h
    · split at h
      · exact ih fs fs2 arcs h arc harc
      · split at h
        · simp at h
        · split at h
          · exact ih fs fs2 arcs h arc harc
          · split at h
            · exact ih _ fs2 arcs h arc harc
            · split at h
              · simp at h
              · rename_i fs3 arcs3 heq
                injection h with h1
                rw [Prod.mk.injEq] at h1
                rw [← h1.2] at harc
                rcases List.mem_cons.mp harc with h2 | h3
                · exact ⟨b, h2⟩
                · exact ih _ fs3 arcs3 heq arc h3

/-- C8: every package-artifact path returned by any packager (Linux
plain, Debian, macOS plain, macOS bundle, Windows) contains the literal
resolved version string as a substring of its filename, so the
publisher's textual substitution always finds a version segment (the
resolved version itself contains no path separator). -/
theorem artifact_filenames_embed_version (v : String) (ex : Exec) (cwd tmpdir : String)
    (fs : FS) (bins : List String) (annexsa git_pkg annex_pkg mac_tar : Option String)
    (hv : ∀ c ∈ v.data, c ≠ '/') :
    (∀ arc ∈ (package_linux_plain v ex fs bins).2, FilenameEmbeds v arc)
    ∧ (∀ arc ∈ (package_mac_plain v ex fs bins).2, FilenameEmbeds v arc)
    ∧ (∀ fs2 debs, debianize v ex tmpdir fs bins annexsa = .ok (fs2, some debs) →
        ∀ arc ∈ debs, FilenameEmbeds v arc)
    ∧ (∀ fs2 arcs, package_mac_bundle v ex cwd tmpdir mac_tar fs bins = .ok (fs2, arcs) →
        ∀ arc ∈ arcs, FilenameEmbeds v arc)
    ∧ (∀ fs2 arcs, winbundle v ex cwd tmpdir git_pkg annex_pkg fs bins = .ok (fs2, arcs) →
        ∀ arc ∈ arcs, FilenameEmbeds v arc) := by
  refine ⟨?_, ?_, ?_, ?_, ?_⟩
  · intro arc harc
    obtain ⟨b, hb⟩ := package_linux_plain_names v ex bins fs arc harc
    exact hb ▸ filenameEmbeds_linuxArcName v b hv
  · intro arc harc
    obtain ⟨b, hb⟩ := package_mac_plain_names v ex bins fs arc harc
    exact hb ▸ filenameEmbeds_macArcName v b hv
  · intro fs2 debs h arc harc
    unfold debianize at h
    split at h
    · simp at h
    · rename_i fs3 r heq
      injection h with h1
      rw [Prod.mk.injEq] at h1
      have hr : debianizeGo v ex tmpdir annexsa fs bins = .ok (fs2, some debs) := by
        rw [h1.1, h1.2] at heq
        exact heq
      have := debianizeGo_names v ex tmpdir annexsa bins fs fs2 debs hr arc harc
      exact this ▸ filenameEmbeds_debName v hv
  · intro fs2 arcs h arc harc
    obtain ⟨b, hb⟩ := package_mac_bundle_names v ex cwd tmpdir mac_tar bins fs fs2 arcs h arc harc
    exact hb ▸ filenameEmbeds_macBundleArcName v b hv
  · intro fs2 arcs h arc harc
    obtain ⟨b, hb⟩ := winbundle_names v ex cwd tmpdir git_pkg annex_pkg bins fs fs2 arcs h arc harc
    exact hb ▸ filenameEmbeds_winArcName v b hv

/-- C8 witness: the invariant at a concrete run of the Linux plain
packager. -/
theorem artifact_filenames_embed_version_witness :
    FilenameEmbeds "1.0" "dist/pkg/gin-cli-1.0-linux-amd64.tar.gz" :=
  (artifact_filenames_embed_version "1.0" okExec "/w" "/t" ⟨[], 0⟩ ["dist/linux-amd64/gin"]
      none none none none (by decide)).1
    "dist/pkg/gin-cli-1.0-linux-amd64.tar.gz" (by decide)

end DoRelease
